import Mathlib

/-!
Shallow embedding of the vndle repository (src/scripts/python) in Lean 4.

Python dynamic values are modelled by small inductive value types per field;
dict records become structures with `Option`-valued fields (a `none` field is
an absent key).  Machine floats in the trait scorer are modelled as exact
rationals.  Fallible code returns `Except`.  Network traffic is modelled by
an explicit service oracle; sleeps and requests become an event trace.
-/

/-- Trait object as returned by the VNDB API: `{"id": ..., "name": ..., "group_name": ...}`. -/
structure Trait where
  id : String
  name : String
  group_name : String
deriving DecidableEq

/-- Value stored under a grouped-trait key ("Hair", ..): Python may hold either a
bare string or a list of strings there. -/
inductive FieldVal where
  | str (s : String)
  | strList (l : List String)
deriving DecidableEq

/-- Possible shapes of the `birthday` field. -/
inductive BirthVal where
  | list (l : List Int)
  | str (s : String)
  | num (n : Int)
deriving DecidableEq

/-- Possible shapes of the `sex` field. -/
inductive SexVal where
  | str (s : String)
  | list (l : List String)
deriving DecidableEq

/-- Shape of the `image` field: a dict carrying a `url` key, or anything else. -/
inductive ImageVal where
  | withUrl (url : String)
  | noUrl
deriving DecidableEq

/-- Entry of a character's `vns` association list. -/
structure VNAssoc where
  id : String
  released : Option String
  role : Option String
  developers : List String
deriving DecidableEq

/-- Character record (raw and progressively normalised shapes share this type;
an absent dict key is a `none` field). -/
structure Character where
  id : String
  name : String
  age : Option Int := none
  birthday : Option BirthVal := none
  sex : Option SexVal := none
  image : Option ImageVal := none
  image_url : Option String := none
  traits : Option (List Trait) := none
  vns : Option (List VNAssoc) := none
  origin : Option String := none
  non_unique_trait : Option String := none
  released : Option String := none
  role : Option String := none
  developer : Option String := none
  hair : Option FieldVal := none
  personality : Option FieldVal := none
  eyes : Option FieldVal := none
  role_traits : Option FieldVal := none
  body : Option FieldVal := none
deriving DecidableEq

/-- Catalog entry (`{"id": ..., "title": ...}`). -/
structure VN where
  id : String
  title : String
deriving DecidableEq

/-! ### String helpers (code-point order and substring test, as Python has them) -/

/-- Whether the first char list is an initial segment of the second. -/
def startsWithL : List Char → List Char → Bool
  | [], _ => true
  | _ :: _, [] => false
  | p :: ps, c :: cs => p == c && startsWithL ps cs

/-- Python's `pat in s` substring containment, over char lists. -/
def containsL (pat : List Char) : List Char → Bool
  | [] => startsWithL pat []
  | c :: cs => startsWithL pat (c :: cs) || containsL pat cs

/-- Python's code-point lexicographic `<=` on strings, over char lists. -/
def lexLe : List Char → List Char → Bool
  | [], _ => true
  | _ :: _, [] => false
  | a :: as, b :: bs => a < b || (a == b && lexLe as bs)

/-- Sorting relation used to model Python's `list.sort()` on strings. -/
def strLe (a b : String) : Prop := lexLe a.data b.data = true

instance : DecidableRel strLe := fun a b => instDecidableEqBool _ _

/-- Python's stable `list.sort()` on a list of strings, modelled by (stable)
insertion sort under code-point order. -/
def sortStrings (names : List String) : List String := List.insertionSort strLe names

/-! ### vndb_client.py -/

/-- One page of a paginated VNDB response: the `results` batch plus the
`more` continuation flag. -/
structure Page (α : Type) where
  results : List α
  more : Bool
deriving DecidableEq

/-- `fetch_characters_by_vn_id`, pagination core: the service's successive
responses are given as a list, page 1 first.  The loop extends the
accumulator with each batch and stops after the first page whose `more`
flag is false. -/
def fetch_characters_by_vn_id {α : Type} : List (Page α) → List α
  | [] => []
  | p :: rest => p.results ++ (if p.more then fetch_characters_by_vn_id rest else [])

/-- Loop body of `fetch_top_vns` (`while page <= limit`), with the service
modelled as a page-number-indexed oracle; returns the list of page numbers
requested and the accumulated results.  NOTE (faithful to the source): when a
response's `more` flag is false the loop breaks BEFORE extending the
accumulator with that response's batch. -/
def fetchTopGo {α : Type} (srv : Int → Page α) (limit : Int) : Nat → Int → List Int × List α
  | 0, _ => ([], [])
  | fuel + 1, page =>
    if page ≤ limit then
      let d := srv page
      if d.more then
        let r := fetchTopGo srv limit fuel (page + 1)
        (page :: r.1, d.results ++ r.2)
      else ([page], [])
    else ([], [])

/-- `fetch_top_vns`: validates `limit`, then pages through the service.
Result: (pages requested, `Except` mirroring the `ValueError`). -/
def fetch_top_vns {α : Type} (srv : Int → Page α) (limit : Int) (page : Int) :
    List Int × Except String (List α) :=
  if limit < 1 then ([], .error "Limit must be at least 1")
  else
    let r := fetchTopGo srv limit (limit + 1 - page).toNat page
    (r.1, .ok r.2)

/-! ### vndb_data_utils.py -/

/-- `NSFW_GROUP_SUBSTRINGS`. -/
def NSFW_GROUP_SUBSTRINGS : List String := ["(Sexual)"]

/-- `is_sfw`: true iff no denylisted substring occurs in the trait's group name. -/
def is_sfw (trait : Trait) : Bool :=
  !(NSFW_GROUP_SUBSTRINGS.any (fun bad => containsL bad.data trait.group_name.data))

/-- Counter increment `freq[k] += 1`. -/
def bump (freq : String → Nat) (k : String) : String → Nat :=
  fun x => if x = k then freq x + 1 else freq x

/-- `collect_frequencies`: for each character, for each trait in its trait list,
increment the trait id's counter when the trait is SFW.  The Counter is
modelled as a total function defaulting to 0. -/
def collect_frequencies (characters : List Character) : String → Nat :=
  characters.foldl
    (fun freq ch =>
      (ch.traits.getD []).foldl (fun freq tr => if is_sfw tr then bump freq tr.id else freq) freq)
    (fun _ => 0)

/-- `GROUP_WEIGHTS` lookup with `_DEFAULT_WEIGHT = 0.8` fallback (floats as exact rationals). -/
def group_weight (g : String) : ℚ :=
  if g = "Personality" then 7/5
  else if g = "Role" then 6/5
  else if g = "Engages in" then 1
  else if g = "Subject of" then 1
  else 4/5

/-- `score_trait`: rarity times group weight; 0 when the trait id is unseen. -/
def score_trait (trait : Trait) (freq : String → Nat) : ℚ :=
  (if freq trait.id ≠ 0 then (1 : ℚ) / (freq trait.id : ℚ) else 0) * group_weight trait.group_name

/-- Loop of `_best_trait`: running best score (init -1.0) and best name (init None). -/
def best_trait_go (freq : String → Nat) : List Trait → ℚ → Option String → Option String
  | [], _, best_name => best_name
  | tr :: rest, best_score, best_name =>
    let sc := score_trait tr freq
    if best_score < sc then best_trait_go freq rest sc (some tr.name)
    else best_trait_go freq rest best_score best_name

/-- `_best_trait`. -/
def best_trait (traits : List Trait) (freq : String → Nat) : Option String :=
  best_trait_go freq traits (-1) none

/-- SFW traits of a character, in list order. -/
def sfw_traits (character : Character) : List Trait :=
  (character.traits.getD []).filter (fun tr => is_sfw tr)

/-- `overlap_ok` pool: SFW traits whose global frequency meets `min_overlap`. -/
def overlap_pool (character : Character) (freq : String → Nat) (min_overlap : Nat) : List Trait :=
  (sfw_traits character).filter (fun tr => min_overlap ≤ freq tr.id)

/-- `leftovers` pool: SFW traits below the `min_overlap` threshold. -/
def leftover_pool (character : Character) (freq : String → Nat) (min_overlap : Nat) : List Trait :=
  (sfw_traits character).filter (fun tr => freq tr.id < min_overlap)

/-- `select_signature_trait`.  The final `or None` of the source coerces a
falsy chosen name (the empty string) to `None`. -/
def select_signature_trait (character : Character) (freq : String → Nat)
    (min_overlap : Nat) : Option String :=
  let overlap_ok := overlap_pool character freq min_overlap
  let leftovers := leftover_pool character freq min_overlap
  match (if overlap_ok ≠ [] then best_trait overlap_ok freq else none) with
  | some chosen => some chosen
  | none =>
    match best_trait leftovers freq with
    | some nm => if nm = "" then none else some nm
    | none => none

/-- `create_records`: compute the roster frequency once, then label every
record with its signature trait, falling back to the first SFW trait name. -/
def create_records (characters : List Character) : List Character :=
  let freq := collect_frequencies characters
  characters.map (fun ch =>
    let sig := select_signature_trait ch freq 2
    let sig := match sig with
      | none => ((ch.traits.getD []).find? (fun t => is_sfw t)).map (fun t => t.name)
      | some s => some s
    { ch with non_unique_trait := sig })

/-- Loop of `remove_duplicates` (generic in the identity key): keep a record
iff its key was not seen before, accumulating seen keys. -/
def dedupByGo {α κ : Type} [DecidableEq κ] (key : α → κ) : List κ → List α → List α
  | _, [] => []
  | seen, r :: rs =>
    if key r ∈ seen then dedupByGo key seen rs
    else r :: dedupByGo key (key r :: seen) rs

/-- First-occurrence-wins deduplication by a key function. -/
def dedupBy {α κ : Type} [DecidableEq κ] (key : α → κ) (records : List α) : List α :=
  dedupByGo key [] records

/-- Character dedup key `(record["id"], record["name"])`. -/
def charKey (r : Character) : String × String := (r.id, r.name)

/-- `remove_duplicates`: dedup character records on `(id, name)`. -/
def remove_duplicates (records : List Character) : List Character :=
  dedupBy charKey records

/-- `remove_duplicates_in_vns`: dedup VN entries on `id`. -/
def remove_duplicates_in_vns (vns : List VN) : List VN :=
  dedupBy VN.id vns

/-- `add_origin_to_character`. -/
def add_origin_to_character (character : Character) (origin : String) : Character :=
  { character with origin := some origin }

/-- Names collected per trait group, in trait-list order (the `defaultdict` pass). -/
def groupNames (traits : List Trait) (g : String) : List String :=
  (traits.filter (fun t => t.group_name = g)).map (fun t => t.name)

/-- Per-group assignment of `clean_character_traits`: an empty collection
keeps the old field (`continue`), otherwise the sorted name list is stored
(NOTE, faithful to the source: always the list, never a bare string). -/
def groupField (old : Option FieldVal) (traits : List Trait) (g : String) : Option FieldVal :=
  let names := groupNames traits g
  if names = [] then old else some (FieldVal.strList (sortStrings names))

/-- `clean_character_traits`: drop `traits`, add the grouped fields for
Hair, Personality, Eyes, Role, Body. -/
def clean_character_traits (char : Character) : Character :=
  let ts := char.traits.getD []
  { char with
    traits := none
    hair := groupField char.hair ts "Hair"
    personality := groupField char.personality ts "Personality"
    eyes := groupField char.eyes ts "Eyes"
    role_traits := groupField char.role_traits ts "Role"
    body := groupField char.body ts "Body" }

/-- Python `f"{n:02d}"`: pad with a leading zero up to width 2. -/
def pad2 (n : Int) : String :=
  let s := toString n
  if s.length < 2 then "0" ++ s else s

/-- `birthday_to_string`: `[month, day]` becomes `"DD.MM."`; any other length
raises `ValueError`. -/
def birthday_to_string (bday : List Int) : Except String String :=
  match bday with
  | [month, day] => .ok (pad2 day ++ "." ++ pad2 month ++ ".")
  | _ => .error "Birthday must be [month, day]."

/-- `normalize_birthday`: rewrite a list-shaped birthday through
`birthday_to_string`; leave every other shape untouched. -/
def normalize_birthday (char : Character) : Except String Character :=
  match char.birthday with
  | some (.list l) => (birthday_to_string l).map (fun s => { char with birthday := some (.str s) })
  | _ => .ok char

/-- `normalize_image_url`: pop `image`; a dict with a `url` key becomes `image_url`. -/
def normalize_image_url (char : Character) : Character :=
  match char.image with
  | some (.withUrl u) => { char with image := none, image_url := some u }
  | some .noUrl => { char with image := none }
  | none => char

/-- `normalize_sex`: a non-empty list is replaced by its first element; the
emptiness test guards the subscript, so every other shape passes unchanged. -/
def normalize_sex (char : Character) : Character :=
  match char.sex with
  | some (.list (x :: _)) => { char with sex := some (.str x) }
  | _ => char

/-- `normalize_origin_entry`: a falsy origin returns the record unchanged;
otherwise the matching `vns` entry's fields are copied and `vns` is popped. -/
def normalize_origin_entry (char : Character) : Character :=
  match char.origin with
  | none => char
  | some origin_id =>
    if origin_id = "" then char
    else
      let c :=
        match (char.vns.getD []).find? (fun vn => vn.id = origin_id) with
        | some vn =>
          { char with
            released := vn.released
            role := vn.role
            developer := match vn.developers with
              | [] => char.developer
              | d :: _ => some d }
        | none => char
      { c with vns := none }

/-! ### vndb_cli.py -/

/-- `MAX_CHAR_BATCH`. -/
def MAX_CHAR_BATCH : Nat := 25

/-- `int(o.get("id", "v0")[1:])`: strip the one-letter type tag and parse
the decimal suffix (well-formed ids only; 0 stands in for the `ValueError`). -/
def charDigit (c : Char) : Option Nat :=
  if 48 ≤ c.toNat ∧ c.toNat ≤ 57 then some (c.toNat - 48) else none

/-- Decimal parse accumulator. -/
def parseDigitsGo : Nat → List Char → Option Nat
  | acc, [] => some acc
  | acc, c :: cs =>
    match charDigit c with
    | some d => parseDigitsGo (acc * 10 + d) cs
    | none => none

/-- Numeric sort key of `_sorted_by_id`. -/
def id_sort_key (s : String) : Nat :=
  (match s.data.drop 1 with
   | [] => none
   | cs => parseDigitsGo 0 cs).getD 0

/-- Stable-sort relation comparing a numeric rank. -/
def rankLe {α : Type} (rk : α → Nat) (a b : α) : Prop := rk a ≤ rk b

instance {α : Type} (rk : α → Nat) : DecidableRel (rankLe rk) := fun a b => Nat.decLe _ _

instance {α : Type} (rk : α → Nat) : IsTotal α (rankLe rk) := ⟨fun a b => Nat.le_total _ _⟩

instance {α : Type} (rk : α → Nat) : IsTrans α (rankLe rk) := ⟨fun _ _ _ => Nat.le_trans⟩

/-- Numeric rank of a character record. -/
def charRank (c : Character) : Nat := id_sort_key c.id

/-- Numeric rank of a catalog entry. -/
def vnRank (v : VN) : Nat := id_sort_key v.id

/-- `_sorted_by_id` on characters (Python `sorted` is stable; insertion sort is). -/
def sorted_by_id_chars (objs : List Character) : List Character :=
  List.insertionSort (rankLe charRank) objs

/-- `_sorted_by_id` on catalog entries. -/
def sorted_by_id_vns (objs : List VN) : List VN :=
  List.insertionSort (rankLe vnRank) objs

/-- `prepare_records`: dedup, label, then run the fixed normalisation
pipeline; the birthday step can fail and its error propagates. -/
def prepare_records (raw_chars : List Character) : Except String (List Character) := do
  let chars := remove_duplicates raw_chars
  let records := create_records chars
  let records := records.map clean_character_traits
  let records ← records.mapM normalize_birthday
  let records := records.map normalize_image_url
  let records := records.map normalize_sex
  let records := records.map normalize_origin_entry
  pure records

/-- Persist/merge step of `_cli` (section 4 of the orchestrator): in append
mode merge with the existing store and dedup, in replace mode take the new
lists as they are; both modes sort by numeric id. -/
def merge_step (append : Bool) (existing_chars records : List Character)
    (existing_tv new_tv : List VN) : List Character × List VN :=
  let merged_records :=
    if append then remove_duplicates (existing_chars ++ records) else records
  let merged_records := sorted_by_id_chars merged_records
  let merged_top_vns :=
    if append then remove_duplicates_in_vns (existing_tv ++ new_tv) else new_tv
  let merged_top_vns := sorted_by_id_vns merged_top_vns
  (merged_records, merged_top_vns)

/-- Observable timing/network events of the fetch orchestrator. -/
inductive Ev where
  | fullSleep
  | itemSleep
  | backoff (attempt : Nat)
  | request (id : String) (attempt : Nat)
deriving DecidableEq

/-- Retry loop of `fetch_characters` for one VN id.  The oracle gives each
attempt's outcome; fuel is the number of remaining loop iterations
(`range(max_retries + 1)`).  Returns the events plus `ok none` for an empty
batch (warning, counter untouched), `ok (some batch)` for a non-empty one,
and `error` for the fatal `RuntimeError` after exhausting retries. -/
def attemptsGo (oracle : String → Nat → Except String (List Character)) (id : String)
    (maxR : Nat) : Nat → Nat → List Ev × Except String (Option (List Character))
  | _, 0 => ([], .ok none)
  | attempt, fuel + 1 =>
    match oracle id attempt with
    | .ok batch => ([Ev.request id attempt], .ok (if batch.isEmpty then none else some batch))
    | .error _ =>
      if maxR ≤ attempt then
        ([Ev.request id attempt], .error ("giving up on " ++ id))
      else
        let r := attemptsGo oracle id maxR (attempt + 1) fuel
        (Ev.request id attempt :: Ev.backoff attempt :: r.1, r.2)

/-- Main loop of `fetch_characters`: per id, the fixed 5s item sleep, the
retry loop, origin tagging, and the batch-pacing pause with counter reset
once `MAX_CHAR_BATCH` ids have produced characters since the last pause. -/
def fetchLoopGo (oracle : String → Nat → Except String (List Character)) (maxR : Nat) :
    List String → Nat → List Ev × Except String (List Character)
  | [], _ => ([], .ok [])
  | id :: rest, counter =>
    let a := attemptsGo oracle id maxR 0 (maxR + 1)
    match a.2 with
    | .error e => (Ev.itemSleep :: a.1, .error e)
    | .ok optB =>
      let counter1 := match optB with | none => counter | some _ => counter + 1
      let got := match optB with
        | none => []
        | some b => b.map (fun c => add_origin_to_character c id)
      if MAX_CHAR_BATCH ≤ counter1 then
        let r := fetchLoopGo oracle maxR rest 0
        (Ev.itemSleep :: (a.1 ++ Ev.fullSleep :: r.1), r.2.map (fun cs => got ++ cs))
      else
        let r := fetchLoopGo oracle maxR rest counter1
        (Ev.itemSleep :: (a.1 ++ r.1), r.2.map (fun cs => got ++ cs))

/-- `fetch_characters`: mandatory warm-up sleep of the full pacing interval,
then the paced per-id loop. -/
def fetch_characters (oracle : String → Nat → Except String (List Character)) (maxR : Nat)
    (ids : List String) : List Ev × Except String (List Character) :=
  let r := fetchLoopGo oracle maxR ids 0
  (Ev.fullSleep :: r.1, r.2)

/-- Per-item event block of a first-attempt, non-empty-result fetch. -/
def itemEvs (id : String) : List Ev := [Ev.itemSleep, Ev.request id 0]

/-! ### Claim C1 -/

/-- Service trace for C1: page 1 carries one result and reports no further pages. -/
def c1Service : Int → Page String := fun _ => { results := ["t1"], more := false }

/-- C1: FALSIFIED for `fetch_top_vns` (code bug).  When the service reports a
single page holding one result with the continuation flag false, `fetch_top_vns`
requests that page but returns the empty list: the loop breaks on `more == False`
before extending the accumulator, so the final page's batch is dropped.  For
`fetch_characters_by_vn_id` the claim holds: the returned sequence is the
concatenation, in page order, of every reported page's batch. -/
theorem c1_pagination_drops_final_batch :
    fetch_top_vns c1Service 1 1 = ([1], .ok []) ∧ (c1Service 1).results = ["t1"] ∧
    (∀ (front : List (Page String)) (last : Page String),
      (∀ p ∈ front, p.more = true) → last.more = false →
      fetch_characters_by_vn_id (front ++ [last]) =
        ((front ++ [last]).map Page.results).flatten) := by
  refine ⟨rfl, rfl, ?_⟩
  intro front last hfront hlast
  induction front with
  | nil => simp [fetch_characters_by_vn_id, hlast]
  | cons p rest ih =>
    have hp : p.more = true := hfront p (by simp)
    have ih2 := ih (fun q hq => hfront q (by simp [hq]))
    simp only [List.cons_append, fetch_characters_by_vn_id, hp, if_true, List.map_cons,
      List.flatten_cons, List.append_eq]
    rw [ih2]

/-- Witness for the `fetch_characters_by_vn_id` half of C1, at a concrete
two-page service trace. -/
theorem c1_pagination_witness :
    fetch_characters_by_vn_id
        [({ results := ["a", "b"], more := true } : Page String),
         { results := ["c"], more := false }] = ["a", "b", "c"] := by
  have h := c1_pagination_drops_final_batch.2.2
    [{ results := ["a", "b"], more := true }] { results := ["c"], more := false }
    (by decide) (by decide)
  exact h.trans (by decide)

/-! ### Claim C2 -/

/-- Failing input for C2: a character with exactly one Hair trait. -/
def c2char : Character :=
  { id := "c7", name := "N", traits := some [⟨"i1", "Blonde", "Hair"⟩] }

/-- C2: FALSIFIED in the single-match case (code bug).  With exactly one trait
name mapped to the Hair group, `clean_character_traits` stores the one-element
list, never the bare string that both the claim and the function's own
docstring promise.  The other parts of the claim behave as stated on this
record: the trait list is dropped and unmatched groups stay absent. -/
theorem c2_single_match_is_list_not_string :
    (clean_character_traits c2char).hair = some (FieldVal.strList ["Blonde"]) ∧
    some (FieldVal.strList ["Blonde"]) ≠ some (FieldVal.str "Blonde") ∧
    (clean_character_traits c2char).traits = none ∧
    (clean_character_traits c2char).personality = none ∧
    (clean_character_traits c2char).eyes = none ∧
    (clean_character_traits c2char).role_traits = none ∧
    (clean_character_traits c2char).body = none := by
  refine ⟨by decide, by decide, by decide, by decide, by decide, by decide, by decide⟩

/-! ### Claim C9 -/

/-- C9: `normalize_sex` is total over every sex-field shape; lists are
replaced by their first element only when non-empty, and an empty list (like
an absent field or a scalar) passes through unchanged. -/
theorem c9_normalize_sex_total (c : Character) :
    (c.sex = some (SexVal.list []) → normalize_sex c = c) ∧
    (c.sex = none → normalize_sex c = c) ∧
    (∀ s, c.sex = some (SexVal.str s) → normalize_sex c = c) ∧
    (∀ x xs, c.sex = some (SexVal.list (x :: xs)) →
      normalize_sex c = { c with sex := some (SexVal.str x) }) := by
  refine ⟨fun h => ?_, fun h => ?_, fun s h => ?_, fun x xs h => ?_⟩ <;>
    simp [normalize_sex, h]

/-- Witness for C9 at a record whose sex field is the empty list. -/
theorem c9_witness :
    normalize_sex { id := "c1", name := "A", sex := some (SexVal.list []) } =
      { id := "c1", name := "A", sex := some (SexVal.list []) } :=
  (c9_normalize_sex_total _).1 rfl

/-! ### Claim C10 -/

/-- C10: a page-count limit below 1 raises the `ValueError` with no page
requested; a limit of at least 1 never trips the validation. -/
theorem c10_top_vns_limit_validation {α : Type} (srv : Int → Page α) (limit page : Int) :
    (limit < 1 → fetch_top_vns srv limit page = ([], .error "Limit must be at least 1")) ∧
    (1 ≤ limit → ∃ vns, (fetch_top_vns srv limit page).2 = .ok vns) := by
  constructor
  · intro h
    simp [fetch_top_vns, h]
  · intro h
    simp [fetch_top_vns, Int.not_lt.mpr h]

/-- Witness for C10 at limits 0 and 1. -/
theorem c10_witness :
    fetch_top_vns (fun _ => ({ results := [], more := false } : Page String)) 0 1 =
        ([], .error "Limit must be at least 1") ∧
    ∃ vns, (fetch_top_vns (fun _ => ({ results := [], more := false } : Page String)) 1 1).2 =
        .ok vns :=
  ⟨(c10_top_vns_limit_validation _ 0 1).1 (by decide),
   (c10_top_vns_limit_validation _ 1 1).2 (by decide)⟩

/-! ### Claim C7 -/

/-- C7: birthday normalization.  A two-element `[month, day]` list becomes the
zero-padded string `"DD.MM."` (`[8, 30]` gives `"30.08."`, `[1, 1]` gives
`"01.01."`); a list of any other length raises the validation error; any
non-list shape, including an absent field, passes through unchanged. -/
theorem c7_birthday_normalization (m d : Int) (l : List Int) (c : Character) :
    (birthday_to_string [m, d] = .ok (pad2 d ++ "." ++ pad2 m ++ ".")) ∧
    (birthday_to_string [8, 30] = .ok "30.08." ∧ birthday_to_string [1, 1] = .ok "01.01.") ∧
    (l.length ≠ 2 → birthday_to_string l = .error "Birthday must be [month, day].") ∧
    (c.birthday = some (BirthVal.list l) → l.length ≠ 2 →
      normalize_birthday c = .error "Birthday must be [month, day].") ∧
    (∀ m' d', c.birthday = some (BirthVal.list [m', d']) →
      normalize_birthday c =
        .ok { c with birthday := some (.str (pad2 d' ++ "." ++ pad2 m' ++ ".")) }) ∧
    ((∀ bl, c.birthday ≠ some (BirthVal.list bl)) → normalize_birthday c = .ok c) := by
  have hlen : l.length ≠ 2 → birthday_to_string l = .error "Birthday must be [month, day]." := by
    intro h
    match l with
    | [] => rfl
    | [_] => rfl
    | [_, _] => exact absurd rfl h
    | _ :: _ :: _ :: _ => rfl
  refine ⟨rfl, ⟨rfl, rfl⟩, hlen, fun hb hne => ?_, fun m1 d1 hb => ?_, fun hnl => ?_⟩
  · simp [normalize_birthday, hb, hlen hne, Except.map]
  · simp [normalize_birthday, hb, birthday_to_string, Except.map]
  · rcases hc : c.birthday with _ | bv
    · simp [normalize_birthday, hc]
    · cases bv with
      | list bl => exact absurd hc (hnl bl)
      | str s => simp [normalize_birthday, hc]
      | num n => simp [normalize_birthday, hc]

/-- Record with a `[8, 30]` birthday. -/
def c7recA : Character := { id := "c1", name := "A", birthday := some (BirthVal.list [8, 30]) }

/-- Record with a length-1 birthday list. -/
def c7recB : Character := { id := "c1", name := "A", birthday := some (BirthVal.list [5]) }

/-- Record with a string-shaped (non-list) birthday. -/
def c7recC : Character := { id := "c1", name := "A", birthday := some (BirthVal.str "x") }

/-- Witness for C7: the round-trip example, the length-1 failure, and a
string-shaped birthday passing through, at concrete records. -/
theorem c7_witness :
    normalize_birthday c7recA =
      .ok { id := "c1", name := "A", birthday := some (BirthVal.str "30.08.") } ∧
    normalize_birthday c7recB = .error "Birthday must be [month, day]." ∧
    normalize_birthday c7recC = .ok c7recC := by
  refine ⟨?_, ?_, ?_⟩
  · exact ((c7_birthday_normalization 0 0 [] c7recA).2.2.2.2.1 8 30 rfl).trans rfl
  · exact (c7_birthday_normalization 0 0 [5] c7recB).2.2.2.1 rfl (by decide)
  · exact (c7_birthday_normalization 0 0 [] c7recC).2.2.2.2.2 (fun bl h => by simp [c7recC] at h)

/-! ### Claim C3 -/

/-- Occurrences of SFW traits with a given id inside one trait list. -/
def sfw_occurrences (ts : List Trait) (tid : String) : Nat :=
  (ts.filter (fun tr => is_sfw tr && tr.id == tid)).length

/-- The count the claim asserts: the number of characters in the roster that
carry at least one SFW trait with the given id (modelled from the claim's
words, for comparison with `collect_frequencies`). -/
def claimed_character_count (chars : List Character) (tid : String) : Nat :=
  (chars.filter (fun ch => (ch.traits.getD []).any (fun tr => is_sfw tr && tr.id == tid))).length

/-- Evaluating the inner per-character fold of `collect_frequencies`. -/
theorem traits_fold_eval (ts : List Trait) (f : String → Nat) (tid : String) :
    (ts.foldl (fun f tr => if is_sfw tr then bump f tr.id else f) f) tid =
      f tid + sfw_occurrences ts tid := by
  induction ts generalizing f with
  | nil => simp [sfw_occurrences]
  | cons tr ts ih =>
    simp only [List.foldl_cons]
    by_cases hs : is_sfw tr
    · by_cases hid : tr.id = tid
      · subst hid
        rw [if_pos hs, ih]
        have hocc : sfw_occurrences (tr :: ts) tr.id = sfw_occurrences ts tr.id + 1 := by
          simp [sfw_occurrences, List.filter_cons, hs]
        have hbump : bump f tr.id tr.id = f tr.id + 1 := by simp [bump]
        rw [hbump, hocc]
        omega
      · have hbe : (tr.id == tid) = false := by simp [hid]
        rw [if_pos hs, ih]
        have hocc : sfw_occurrences (tr :: ts) tid = sfw_occurrences ts tid := by
          simp [sfw_occurrences, List.filter_cons, hbe]
        have hbump : bump f tr.id tid = f tid := by simp [bump, Ne.symm hid]
        rw [hbump, hocc]
    · have hs2 : is_sfw tr = false := by simpa using hs
      have hocc : sfw_occurrences (tr :: ts) tid = sfw_occurrences ts tid := by
        simp [sfw_occurrences, List.filter_cons, hs2]
      rw [if_neg (by simp [hs2]), ih, hocc]

/-- Evaluating the outer fold of `collect_frequencies`. -/
theorem collect_fold_eval (chars : List Character) (f : String → Nat) (tid : String) :
    (chars.foldl
        (fun freq ch =>
          (ch.traits.getD []).foldl
            (fun freq tr => if is_sfw tr then bump freq tr.id else freq) freq)
        f) tid =
      f tid + (chars.map (fun ch => sfw_occurrences (ch.traits.getD []) tid)).sum := by
  induction chars generalizing f with
  | nil => simp
  | cons ch chars ih =>
    simp only [List.foldl_cons, ih, traits_fold_eval, List.map_cons, List.sum_cons]
    omega

/-- With no SFW trait of the given id present, the occurrence count is zero. -/
theorem sfw_occurrences_eq_zero (ts : List Trait) (tid : String)
    (h : ∀ tr ∈ ts, is_sfw tr = true → tr.id ≠ tid) : sfw_occurrences ts tid = 0 := by
  induction ts with
  | nil => rfl
  | cons tr ts ih =>
    have htail := ih (fun t ht hsfw => h t (List.mem_cons_of_mem _ ht) hsfw)
    by_cases hs : is_sfw tr
    · have hbe : (tr.id == tid) = false := by simp [h tr (by simp) hs]
      simpa [sfw_occurrences, List.filter_cons, hbe] using htail
    · have hs2 : is_sfw tr = false := by simpa using hs
      simpa [sfw_occurrences, List.filter_cons, hs2] using htail

/-- Under per-character distinctness of SFW trait ids, the occurrence count
collapses to a membership indicator. -/
theorem sfw_occurrences_indicator (ts : List Trait) (tid : String)
    (h : ((ts.filter (fun tr => is_sfw tr)).map Trait.id).Nodup) :
    sfw_occurrences ts tid =
      if ts.any (fun tr => is_sfw tr && tr.id == tid) then 1 else 0 := by
  induction ts with
  | nil => rfl
  | cons tr ts ih =>
    by_cases hs : is_sfw tr
    · have hcons : ((tr :: ts).filter (fun tr => is_sfw tr)).map Trait.id
          = tr.id :: (ts.filter (fun tr => is_sfw tr)).map Trait.id := by
        simp [List.filter_cons, hs]
      rw [hcons] at h
      obtain ⟨hhead, htail⟩ := List.nodup_cons.mp h
      by_cases hid : tr.id = tid
      · subst hid
        have hzero : sfw_occurrences ts tr.id = 0 := by
          apply sfw_occurrences_eq_zero
          intro t ht hsfw he
          exact hhead (List.mem_map.mpr ⟨t, List.mem_filter.mpr ⟨ht, hsfw⟩, he⟩)
        have hstep : sfw_occurrences (tr :: ts) tr.id = sfw_occurrences ts tr.id + 1 := by
          simp [sfw_occurrences, List.filter_cons, hs]
        rw [hstep, hzero]
        simp [List.any_cons, hs]
      · have hbe : (tr.id == tid) = false := by simp [hid]
        have hstep : sfw_occurrences (tr :: ts) tid = sfw_occurrences ts tid := by
          simp [sfw_occurrences, List.filter_cons, hbe]
        rw [hstep, ih htail]
        simp [List.any_cons, hbe]
    · have hs2 : is_sfw tr = false := by simpa using hs
      have htail : ((ts.filter (fun tr => is_sfw tr)).map Trait.id).Nodup := by
        simpa [List.filter_cons, hs2] using h
      have hstep : sfw_occurrences (tr :: ts) tid = sfw_occurrences ts tid := by
        simp [sfw_occurrences, List.filter_cons, hs2]
      rw [hstep, ih htail]
      simp [List.any_cons, hs2]

/-- Summing the per-character indicators gives the character count. -/
theorem sum_occ_eq_claimed (chars : List Character) (tid : String)
    (hnd : ∀ ch ∈ chars,
      (((ch.traits.getD []).filter (fun tr => is_sfw tr)).map Trait.id).Nodup) :
    (chars.map (fun ch => sfw_occurrences (ch.traits.getD []) tid)).sum =
      claimed_character_count chars tid := by
  induction chars with
  | nil => rfl
  | cons ch chars ih =>
    have hch := sfw_occurrences_indicator (ch.traits.getD []) tid (hnd ch (by simp))
    have ih2 := ih (fun c hc => hnd c (List.mem_cons_of_mem _ hc))
    by_cases hp : (ch.traits.getD []).any (fun tr => is_sfw tr && tr.id == tid)
    · rw [List.map_cons, List.sum_cons, hch, if_pos hp, ih2]
      have : claimed_character_count (ch :: chars) tid = claimed_character_count chars tid + 1 := by
        simp [claimed_character_count, List.filter_cons, hp]
      rw [this]
      omega
    · rw [List.map_cons, List.sum_cons, hch, if_neg hp, ih2]
      have : claimed_character_count (ch :: chars) tid = claimed_character_count chars tid := by
        simp [claimed_character_count, List.filter_cons, hp]
      rw [this]
      omega

/-- C3 (amended): `collect_frequencies` maps a trait id to the total number of
SFW trait occurrences with that id across the roster (one per occurrence, not
per character); when no character lists the same SFW trait id twice, this
equals the number of characters that carry it, as the original claim states. -/
theorem c3_frequency_counts_occurrences (chars : List Character) (tid : String) :
    collect_frequencies chars tid =
      (chars.map (fun ch => sfw_occurrences (ch.traits.getD []) tid)).sum ∧
    ((∀ ch ∈ chars,
        (((ch.traits.getD []).filter (fun tr => is_sfw tr)).map Trait.id).Nodup) →
      collect_frequencies chars tid = claimed_character_count chars tid) := by
  have h1 : collect_frequencies chars tid =
      (chars.map (fun ch => sfw_occurrences (ch.traits.getD []) tid)).sum := by
    simpa [collect_frequencies] using collect_fold_eval chars (fun _ => 0) tid
  exact ⟨h1, fun hnd => h1.trans (sum_occ_eq_claimed chars tid hnd)⟩

/-- A trait listed twice by the same character. -/
def c3trait : Trait := ⟨"i1", "Long Hair", "Hair"⟩

/-- Roster whose single character lists the same SFW trait id twice. -/
def c3roster : List Character := [{ id := "c1", name := "A", traits := some [c3trait, c3trait] }]

/-- Counterexample to C3 as stated: on a roster whose one character carries
the SFW trait `i1` twice, the frequency table maps `i1` to 2, but only one
character carries it — the code counts occurrences, not characters. -/
theorem c3_counterexample :
    collect_frequencies c3roster "i1" = 2 ∧ claimed_character_count c3roster "i1" = 1 ∧
    collect_frequencies c3roster "i1" ≠ claimed_character_count c3roster "i1" := by decide

/-- Roster with per-character-distinct trait ids, for the C3 witness. -/
def c3nodupRoster : List Character :=
  [{ id := "c1", name := "A", traits := some [c3trait] },
   { id := "c2", name := "B", traits := some [c3trait] }]

/-- Witness for the amended C3 on a duplicate-free roster. -/
theorem c3_witness :
    collect_frequencies c3nodupRoster "i1" = claimed_character_count c3nodupRoster "i1" :=
  (c3_frequency_counts_occurrences c3nodupRoster "i1").2 (by decide)

/-! ### Deduplication and merge machinery (claims C4, C6) -/

/-- A record kept by the dedup loop has a key outside the starting seen set. -/
theorem dedupByGo_mem_key {α κ : Type} [DecidableEq κ] (key : α → κ) :
    ∀ (l : List α) (seen : List κ) (b : α), b ∈ dedupByGo key seen l → key b ∉ seen := by
  intro l
  induction l with
  | nil => intro seen b h; simp [dedupByGo] at h
  | cons r rs ih =>
    intro seen b h
    by_cases hr : key r ∈ seen
    · rw [dedupByGo, if_pos hr] at h
      exact ih seen b h
    · rw [dedupByGo, if_neg hr] at h
      rcases List.mem_cons.mp h with h | h
      · subst h; exact hr
      · have h2 := ih _ b h
        exact fun hb => h2 (by simp [hb])

/-- The dedup loop emits pairwise-distinct keys. -/
theorem dedupByGo_keys_nodup {α κ : Type} [DecidableEq κ] (key : α → κ) :
    ∀ (l : List α) (seen : List κ), ((dedupByGo key seen l).map key).Nodup := by
  intro l
  induction l with
  | nil => intro seen; simp [dedupByGo]
  | cons r rs ih =>
    intro seen
    by_cases hr : key r ∈ seen
    · rw [dedupByGo, if_pos hr]
      exact ih seen
    · rw [dedupByGo, if_neg hr, List.map_cons]
      refine List.nodup_cons.mpr ⟨?_, ih _⟩
      intro hmem
      obtain ⟨b, hb, hkb⟩ := List.mem_map.mp hmem
      exact dedupByGo_mem_key key rs (key r :: seen) b hb (by simp [hkb])

/-- Every input key outside the seen set survives into the dedup output. -/
theorem dedupByGo_keys_complete {α κ : Type} [DecidableEq κ] (key : α → κ) :
    ∀ (l : List α) (seen : List κ) (a : α), a ∈ l → key a ∉ seen →
      key a ∈ (dedupByGo key seen l).map key := by
  intro l
  induction l with
  | nil => intro seen a ha _; simp at ha
  | cons r rs ih =>
    intro seen a ha hns
    by_cases hr : key r ∈ seen
    · rw [dedupByGo, if_pos hr]
      rcases List.mem_cons.mp ha with h | h
      · subst h; exact absurd hr hns
      · exact ih seen a h hns
    · rw [dedupByGo, if_neg hr, List.map_cons]
      by_cases hk : key a = key r
      · simp [hk]
      · rcases List.mem_cons.mp ha with h | h
        · subst h; exact absurd rfl hk
        · have h2 := ih (key r :: seen) a h (by simp [hk, hns])
          simp [h2]

/-- Running the dedup loop over a key-distinct block followed by a tail. -/
theorem dedupByGo_append_block {α κ : Type} [DecidableEq κ] (key : α → κ) (N : List α) :
    ∀ (D : List α) (seen : List κ), ((D.map key).Nodup) → (∀ a ∈ D, key a ∉ seen) →
      dedupByGo key seen (D ++ N) = D ++ dedupByGo key ((D.reverse.map key) ++ seen) N := by
  intro D
  induction D with
  | nil => intro seen _ _; simp
  | cons r D ih =>
    intro seen hnd hout
    have hr : key r ∉ seen := hout r (by simp)
    rw [List.cons_append, dedupByGo, if_neg hr]
    have hnd2 : (D.map key).Nodup := (List.nodup_cons.mp (by simpa using hnd)).2
    have hhead : key r ∉ D.map key := (List.nodup_cons.mp (by simpa using hnd)).1
    have hout2 : ∀ a ∈ D, key a ∉ key r :: seen := by
      intro a ha
      have h1 : key a ∉ seen := hout a (List.mem_cons_of_mem _ ha)
      have h2 : key a ≠ key r := fun he => hhead (he ▸ List.mem_map.mpr ⟨a, ha, rfl⟩)
      simp [h1, h2]
    rw [ih (key r :: seen) hnd2 hout2, List.cons_append]
    have hseen : (D.reverse.map key) ++ (key r :: seen) = ((r :: D).reverse.map key) ++ seen := by
      simp
    rw [hseen]

/-- A tail whose keys were all seen is dropped whole. -/
theorem dedupByGo_eq_nil {α κ : Type} [DecidableEq κ] (key : α → κ) :
    ∀ (l : List α) (seen : List κ), (∀ a ∈ l, key a ∈ seen) → dedupByGo key seen l = [] := by
  intro l
  induction l with
  | nil => intro seen _; rfl
  | cons r rs ih =>
    intro seen h
    rw [dedupByGo, if_pos (h r (by simp))]
    exact ih seen (fun a ha => h a (List.mem_cons_of_mem _ ha))

/-- Appending records whose keys already occur in a key-distinct list is
absorbed by dedup. -/
theorem dedupBy_append_absorb {α κ : Type} [DecidableEq κ] (key : α → κ) (D N : List α)
    (hnd : (D.map key).Nodup) (hsub : ∀ a ∈ N, key a ∈ D.map key) :
    dedupBy key (D ++ N) = D := by
  unfold dedupBy
  rw [dedupByGo_append_block key N D [] hnd (by simp)]
  rw [dedupByGo_eq_nil key N _ (fun a ha => by simpa [List.map_reverse] using hsub a ha)]
  simp

/-- Core fixed-point fact behind C6: dedup-then-stable-sort applied a second
time with the same new records reproduces the first result. -/
theorem merge_pass_core {α κ : Type} [DecidableEq κ] (key : α → κ) (rk : α → Nat)
    (S N : List α) :
    List.insertionSort (rankLe rk)
        (dedupBy key (List.insertionSort (rankLe rk) (dedupBy key (S ++ N)) ++ N)) =
      List.insertionSort (rankLe rk) (dedupBy key (S ++ N)) := by
  have perm : (List.insertionSort (rankLe rk) (dedupBy key (S ++ N))).Perm
      (dedupBy key (S ++ N)) := List.perm_insertionSort _ _
  have hnd0 : ((dedupBy key (S ++ N)).map key).Nodup := dedupByGo_keys_nodup key _ _
  have hndM : ((List.insertionSort (rankLe rk) (dedupBy key (S ++ N))).map key).Nodup :=
    ((perm.map key).nodup_iff).mpr hnd0
  have hsub : ∀ a ∈ N,
      key a ∈ (List.insertionSort (rankLe rk) (dedupBy key (S ++ N))).map key := by
    intro a ha
    have h0 : key a ∈ (dedupBy key (S ++ N)).map key :=
      dedupByGo_keys_complete key (S ++ N) [] a (List.mem_append_right S ha) (by simp)
    exact ((perm.map key).mem_iff).mpr h0
  rw [dedupBy_append_absorb key _ N hndM hsub]
  exact (List.sorted_insertionSort _ _).insertionSort_eq

/-! ### Claim C6 -/

/-- C6: the append-mode merge is a fixed point.  Merging the new records into
the store produced by an earlier merge of the same new records reproduces
that store exactly, for the character collection and the catalog-entry
collection alike. -/
theorem c6_append_merge_idempotent (S N : List Character) (Stv Ntv : List VN) :
    merge_step true (merge_step true S N Stv Ntv).1 N (merge_step true S N Stv Ntv).2 Ntv =
      merge_step true S N Stv Ntv := by
  have h1 := merge_pass_core charKey charRank S N
  have h2 := merge_pass_core VN.id vnRank Stv Ntv
  simp only [merge_step, remove_duplicates, remove_duplicates_in_vns, sorted_by_id_chars,
    sorted_by_id_vns, if_true]
  exact Prod.ext h1 h2

/-! ### Claim C4 -/

/-- Stable sorting keeps key distinctness (it is a permutation). -/
theorem insertionSort_keys_nodup {α κ : Type} [DecidableEq κ] (key : α → κ) (rk : α → Nat)
    (l : List α) (h : (l.map key).Nodup) :
    ((List.insertionSort (rankLe rk) l).map key).Nodup :=
  (((List.perm_insertionSort (rankLe rk) l).map key).nodup_iff).mpr h

/-- Mapping a per-record transform that fixes `(id, name)` fixes the key list. -/
theorem map_charKey_of_preserving (f : Character → Character)
    (hf : ∀ c, charKey (f c) = charKey c) (l : List Character) :
    (l.map f).map charKey = l.map charKey := by
  rw [List.map_map]
  exact List.map_congr_left (fun c _ => hf c)

/-- Labeling (`create_records`) fixes every record's `(id, name)` key. -/
theorem create_records_keys (chars : List Character) :
    (create_records chars).map charKey = chars.map charKey := by
  unfold create_records
  rw [List.map_map]
  exact List.map_congr_left (fun c _ => rfl)

/-- `clean_character_traits` fixes the `(id, name)` key. -/
theorem clean_keeps_key (c : Character) : charKey (clean_character_traits c) = charKey c := rfl

/-- `normalize_image_url` fixes the `(id, name)` key. -/
theorem image_keeps_key (c : Character) : charKey (normalize_image_url c) = charKey c := by
  rcases h : c.image with _ | iv
  · simp only [normalize_image_url, h]
  · cases iv <;> simp only [normalize_image_url, h] <;> rfl

/-- `normalize_sex` fixes the `(id, name)` key. -/
theorem sex_keeps_key (c : Character) : charKey (normalize_sex c) = charKey c := by
  rcases h : c.sex with _ | sv
  · simp only [normalize_sex, h]
  · cases sv with
    | str s => simp only [normalize_sex, h]
    | list l =>
      cases l with
      | nil => simp only [normalize_sex, h]
      | cons x xs =>
        simp only [normalize_sex, h]
        rfl

/-- `normalize_origin_entry` fixes the `(id, name)` key. -/
theorem origin_keeps_key (c : Character) : charKey (normalize_origin_entry c) = charKey c := by
  rcases h : c.origin with _ | o
  · simp only [normalize_origin_entry, h]
  · simp only [normalize_origin_entry, h]
    by_cases he : o = ""
    · simp [he]
    · simp only [if_neg he]
      rcases hf : (c.vns.getD []).find? (fun vn => vn.id = o) with _ | vn <;> simp [hf, charKey]

/-- A successful `normalize_birthday` fixes the `(id, name)` key. -/
theorem birthday_keeps_key (c c2 : Character) (h : normalize_birthday c = .ok c2) :
    charKey c2 = charKey c := by
  rcases hb : c.birthday with _ | bv
  · simp only [normalize_birthday, hb] at h
    cases h
    rfl
  · cases bv with
    | list l =>
      simp only [normalize_birthday, hb] at h
      cases hbs : birthday_to_string l with
      | error e => rw [hbs] at h; simp [Except.map] at h
      | ok s =>
        rw [hbs] at h
        simp only [Except.map] at h
        cases h
        rfl
    | str s =>
      simp only [normalize_birthday, hb] at h
      cases h
      rfl
    | num n =>
      simp only [normalize_birthday, hb] at h
      cases h
      rfl

/-- A successful birthday pass over a list fixes the key list. -/
theorem mapM_birthday_keys :
    ∀ (l l2 : List Character), l.mapM normalize_birthday = .ok l2 →
      l2.map charKey = l.map charKey := by
  intro l
  induction l with
  | nil =>
    intro l2 h
    simp only [List.mapM_nil, pure, Except.pure] at h
    cases h
    rfl
  | cons a l ih =>
    intro l2 h
    rw [List.mapM_cons] at h
    cases hfa : normalize_birthday a with
    | error e => rw [hfa] at h; simp [bind, Except.bind] at h
    | ok b =>
      rw [hfa] at h
      cases hml : l.mapM normalize_birthday with
      | error e => rw [hml] at h; simp [bind, Except.bind] at h
      | ok bs =>
        rw [hml] at h
        simp only [bind, Except.bind, pure, Except.pure] at h
        cases h
        simp only [List.map_cons, ih bs hml, birthday_keeps_key a b hfa]

/-- The whole labeling/normalisation pipeline fixes the key list of the
deduplicated input. -/
theorem prepare_records_keys (raw rs : List Character) (h : prepare_records raw = .ok rs) :
    rs.map charKey = (remove_duplicates raw).map charKey := by
  unfold prepare_records at h
  simp only [bind, Except.bind, pure, Except.pure] at h
  cases hm : ((create_records (remove_duplicates raw)).map clean_character_traits).mapM
      normalize_birthday with
  | error e => rw [hm] at h; simp at h
  | ok rs1 =>
    rw [hm] at h
    cases h
    rw [map_charKey_of_preserving _ origin_keeps_key, map_charKey_of_preserving _ sex_keeps_key,
      map_charKey_of_preserving _ image_keeps_key, mapM_birthday_keys _ rs1 hm,
      map_charKey_of_preserving _ clean_keeps_key, create_records_keys]

/-- C4 (amended): in append mode the merged store has at most one character
record per `(id, name]` key and at most one catalog entry per id, for every
input; in full-replace mode the character collection is still key-distinct
because the upstream pipeline deduplicates it, but the catalog-entry list is
written as given (see the counterexample for its duplicate ids). -/
theorem c4_merge_uniqueness :
    (∀ (E R : List Character) (Etv Ntv : List VN),
      ((merge_step true E R Etv Ntv).1.map charKey).Nodup ∧
      ((merge_step true E R Etv Ntv).2.map VN.id).Nodup) ∧
    (∀ (raw rs E : List Character) (Etv Ntv : List VN),
      prepare_records raw = .ok rs →
      ((merge_step false E rs Etv Ntv).1.map charKey).Nodup) := by
  constructor
  · intro E R Etv Ntv
    constructor
    · show ((List.insertionSort (rankLe charRank) (dedupBy charKey (E ++ R))).map
        charKey).Nodup
      exact insertionSort_keys_nodup charKey charRank _ (dedupByGo_keys_nodup charKey _ _)
    · show ((List.insertionSort (rankLe vnRank) (dedupBy VN.id (Etv ++ Ntv))).map VN.id).Nodup
      exact insertionSort_keys_nodup VN.id vnRank _ (dedupByGo_keys_nodup VN.id _ _)
  · intro raw rs E Etv Ntv h
    have hnd : (rs.map charKey).Nodup := by
      rw [prepare_records_keys raw rs h]
      exact dedupByGo_keys_nodup charKey raw []
    show ((List.insertionSort (rankLe charRank) rs).map charKey).Nodup
    exact insertionSort_keys_nodup charKey charRank rs hnd

/-- Two catalog entries with the same id, as `--vn_ids v5 v5` produces. -/
def c4dupTV : List VN := [⟨"v5", "A"⟩, ⟨"v5", "B"⟩]

/-- Counterexample to C4 as stated: in full-replace mode the persist step
writes the incoming catalog-entry list without deduplication, so a run whose
top-VN list repeats an id stores that id twice. -/
theorem c4_counterexample :
    ¬ (((merge_step false [] [] [] c4dupTV).2.map VN.id).Nodup) := by decide

/-- Witness for the amended C4: an append-mode merge and a replace-mode merge
of an actual pipeline output, both key-distinct. -/
theorem c4_witness :
    ((merge_step true [] [] [] []).1.map charKey).Nodup ∧
    ((merge_step false [] [{ id := "c1", name := "A" }] [] []).1.map charKey).Nodup :=
  ⟨(c4_merge_uniqueness.1 [] [] [] []).1,
   c4_merge_uniqueness.2 [{ id := "c1", name := "A" }] [{ id := "c1", name := "A" }] [] [] []
     rfl⟩

/-! ### Claim C5 -/

/-- Every group weight is positive. -/
theorem group_weight_pos (g : String) : 0 < group_weight g := by
  unfold group_weight
  split_ifs <;> norm_num

/-- Scores are never negative (so every trait beats the -1.0 initial best). -/
theorem score_trait_nonneg (tr : Trait) (freq : String → Nat) : 0 ≤ score_trait tr freq := by
  unfold score_trait
  refine mul_nonneg ?_ (le_of_lt (group_weight_pos _))
  split_ifs
  · positivity
  · exact le_refl 0

/-- If no trait beats the running best score, the running best name survives. -/
theorem best_trait_go_none (freq : String → Nat) :
    ∀ (ts : List Trait) (bs : ℚ) (bn : Option String),
      (∀ tr ∈ ts, score_trait tr freq ≤ bs) → best_trait_go freq ts bs bn = bn := by
  intro ts
  induction ts with
  | nil => intro bs bn _; rfl
  | cons tr ts ih =>
    intro bs bn h
    rw [best_trait_go, if_neg (not_lt.mpr (h tr (by simp)))]
    exact ih bs bn (fun t ht => h t (List.mem_cons_of_mem _ ht))

/-- If some trait beats the running best score, the loop returns the name of a
maximal-score trait of the list that beats it. -/
theorem best_trait_go_max (freq : String → Nat) :
    ∀ (ts : List Trait) (bs : ℚ) (bn : Option String),
      (∃ tr ∈ ts, bs < score_trait tr freq) →
      ∃ tr ∈ ts, best_trait_go freq ts bs bn = some tr.name ∧ bs < score_trait tr freq ∧
        ∀ tr2 ∈ ts, score_trait tr2 freq ≤ score_trait tr freq := by
  intro ts
  induction ts with
  | nil => intro bs bn h; obtain ⟨tr, htr, _⟩ := h; simp at htr
  | cons tr ts ih =>
    intro bs bn h
    by_cases hlt : bs < score_trait tr freq
    · by_cases hrest : ∃ t2 ∈ ts, score_trait tr freq < score_trait t2 freq
      · obtain ⟨t2, ht2, heq, hgt, hmax⟩ := ih (score_trait tr freq) (some tr.name) hrest
        refine ⟨t2, List.mem_cons_of_mem _ ht2, ?_, lt_trans hlt hgt, ?_⟩
        · rw [best_trait_go, if_pos hlt]
          exact heq
        · intro t3 ht3
          rcases List.mem_cons.mp ht3 with h3 | h3
          · subst h3; exact le_of_lt hgt
          · exact hmax t3 h3
      · push_neg at hrest
        refine ⟨tr, by simp, ?_, hlt, ?_⟩
        · rw [best_trait_go, if_pos hlt]
          exact best_trait_go_none freq ts _ _ hrest
        · intro t3 ht3
          rcases List.mem_cons.mp ht3 with h3 | h3
          · subst h3; exact le_refl _
          · exact hrest t3 h3
    · obtain ⟨t0, ht0, hbs⟩ := h
      rcases List.mem_cons.mp ht0 with h0 | h0
      · subst h0; exact absurd hbs hlt
      · obtain ⟨t2, ht2, heq, hgt, hmax⟩ := ih bs bn ⟨t0, h0, hbs⟩
        refine ⟨t2, List.mem_cons_of_mem _ ht2, ?_, hgt, ?_⟩
        · rw [best_trait_go, if_neg hlt]
          exact heq
        · intro t3 ht3
          rcases List.mem_cons.mp ht3 with h3 | h3
          · subst h3; exact le_of_lt (lt_of_le_of_lt (not_lt.mp hlt) hgt)
          · exact hmax t3 h3

/-- `_best_trait` on a non-empty pool returns the name of a maximal-score
member (first maximal in list order; -1.0 is below every score). -/
theorem best_trait_spec (ts : List Trait) (freq : String → Nat) (h : ts ≠ []) :
    ∃ tr ∈ ts, best_trait ts freq = some tr.name ∧
      ∀ tr2 ∈ ts, score_trait tr2 freq ≤ score_trait tr freq := by
  obtain ⟨tr0, htr0⟩ := List.exists_mem_of_ne_nil ts h
  obtain ⟨tr, htr, heq, _, hmax⟩ := best_trait_go_max freq ts (-1) none
    ⟨tr0, htr0, lt_of_lt_of_le (by norm_num) (score_trait_nonneg tr0 freq)⟩
  exact ⟨tr, htr, heq, hmax⟩

/-- The pool the selection draws from: overlap-eligible traits when that pool
is non-empty, otherwise the leftovers. -/
def select_pool (character : Character) (freq : String → Nat) (min_overlap : Nat) : List Trait :=
  if overlap_pool character freq min_overlap ≠ [] then overlap_pool character freq min_overlap
  else leftover_pool character freq min_overlap

/-- C5 (amended): for characters all of whose SFW trait names are non-empty
strings (every real VNDB trait), `select_signature_trait` returns a non-null
name whenever at least one SFW trait exists — the name of a maximal-scoring
trait of the overlap-eligible pool when non-empty, else of the leftover pool —
and returns null for a character with zero SFW traits; labeling is total
(one output record per input record).  Without the non-empty-name proviso the
leftover fallback's `or None` coerces an empty-string winner to null. -/
theorem c5_signature_selection (ch : Character) (freq : String → Nat) (minov : Nat)
    (hname : ∀ tr ∈ sfw_traits ch, tr.name ≠ "") :
    (sfw_traits ch = [] → select_signature_trait ch freq minov = none) ∧
    (sfw_traits ch ≠ [] →
      ∃ tr ∈ select_pool ch freq minov,
        select_signature_trait ch freq minov = some tr.name ∧
        ∀ tr2 ∈ select_pool ch freq minov, score_trait tr2 freq ≤ score_trait tr freq) ∧
    (∀ chars : List Character, (create_records chars).length = chars.length) := by
  refine ⟨fun h => ?_, fun h => ?_, fun chars => by simp [create_records]⟩
  · simp [select_signature_trait, overlap_pool, leftover_pool, h, best_trait, best_trait_go]
  · by_cases hov : overlap_pool ch freq minov = []
    · have hlo : leftover_pool ch freq minov ≠ [] := by
        obtain ⟨tr, htr⟩ := List.exists_mem_of_ne_nil _ h
        intro hlo
        rcases Nat.lt_or_ge (freq tr.id) minov with hlt | hge
        · have hm : tr ∈ leftover_pool ch freq minov :=
            List.mem_filter.mpr ⟨htr, by simpa using hlt⟩
          rw [hlo] at hm
          simp at hm
        · have hm : tr ∈ overlap_pool ch freq minov :=
            List.mem_filter.mpr ⟨htr, by simpa using hge⟩
          rw [hov] at hm
          simp at hm
      obtain ⟨tr, htr, heq, hmax⟩ := best_trait_spec (leftover_pool ch freq minov) freq hlo
      have hne : tr.name ≠ "" := hname tr (List.mem_filter.mp htr).1
      refine ⟨tr, ?_, ?_, ?_⟩
      · simpa [select_pool, hov] using htr
      · simp [select_signature_trait, hov, heq, hne]
      · intro tr2 ht2
        exact hmax tr2 (by simpa [select_pool, hov] using ht2)
    · obtain ⟨tr, htr, heq, hmax⟩ := best_trait_spec (overlap_pool ch freq minov) freq hov
      refine ⟨tr, ?_, ?_, ?_⟩
      · simpa [select_pool, hov] using htr
      · simp [select_signature_trait, hov, heq]
      · intro tr2 ht2
        exact hmax tr2 (by simpa [select_pool, hov] using ht2)

/-- Character whose only SFW trait has the empty string as its name. -/
def c5char : Character := { id := "c9", name := "E", traits := some [⟨"i1", "", "Hair"⟩] }

/-- Counterexample to C5 as stated: this character has an SFW trait, yet
`select_signature_trait` returns null — the trait is below the overlap
threshold, the leftover fallback picks its name, and the source's `or None`
coerces the falsy empty string to `None`. -/
theorem c5_counterexample :
    sfw_traits c5char ≠ [] ∧
    select_signature_trait c5char (collect_frequencies [c5char]) 2 = none := by
  constructor
  · decide
  · have hov : overlap_pool c5char (collect_frequencies [c5char]) 2 = [] := by decide
    have hlo : leftover_pool c5char (collect_frequencies [c5char]) 2 =
        [⟨"i1", "", "Hair"⟩] := by decide
    have hfreq : collect_frequencies [c5char] "i1" = 1 := by decide
    have hsc : (-1 : ℚ) < score_trait ⟨"i1", "", "Hair"⟩ (collect_frequencies [c5char]) := by
      have hgw : group_weight "Hair" = 4/5 := rfl
      rw [score_trait, hgw]
      simp only [hfreq]
      norm_num
    simp [select_signature_trait, hov, hlo, best_trait, best_trait_go, hsc]

/-- Character with one Personality trait bearing a real name. -/
def c5wChar : Character :=
  { id := "c2", name := "B", traits := some [⟨"i2", "Tsundere", "Personality"⟩] }

/-- Frequency table for the C5 witness. -/
def c5wFreq : String → Nat := fun _ => 5

/-- Witness for the amended C5 at a concrete character with a non-empty-named
SFW trait. -/
theorem c5_witness :
    ∃ tr ∈ select_pool c5wChar c5wFreq 2,
      select_signature_trait c5wChar c5wFreq 2 = some tr.name ∧
      ∀ tr2 ∈ select_pool c5wChar c5wFreq 2,
        score_trait tr2 c5wFreq ≤ score_trait tr c5wFreq :=
  (c5_signature_selection c5wChar c5wFreq 2 (by decide)).2.1 (by decide)

/-! ### Claim C8 -/

/-- Number of full pacing sleeps in a trace. -/
def countFull : List Ev → Nat
  | [] => 0
  | e :: rest => (if e = Ev.fullSleep then 1 else 0) + countFull rest

/-- `countFull` distributes over append. -/
theorem countFull_append (a b : List Ev) : countFull (a ++ b) = countFull a + countFull b := by
  induction a with
  | nil => simp [countFull]
  | cons e a ih => simp [countFull, ih]; omega

/-- Per-item blocks contain no full pacing sleep. -/
theorem countFull_blocks (l : List String) : countFull ((l.map itemEvs).flatten) = 0 := by
  induction l with
  | nil => rfl
  | cons a l ih =>
    simp only [List.map_cons, List.flatten_cons, countFull_append, ih]
    rfl

/-- A first-attempt success with a non-empty batch produces exactly one
request event and the non-empty outcome. -/
theorem attemptsGo_first_success (oracle : String → Nat → Except String (List Character))
    (id : String) (maxR : Nat) (b : List Character) (hb : oracle id 0 = .ok b)
    (hbne : b ≠ []) :
    attemptsGo oracle id maxR 0 (maxR + 1) = ([Ev.request id 0], .ok (some b)) := by
  have hempty : b.isEmpty = false := by
    cases b
    · exact absurd rfl hbne
    · rfl
  simp [attemptsGo, hb, hempty]

/-- While the batch counter cannot reach the threshold, the loop emits only
per-item blocks (no full pacing sleep). -/
theorem fetchLoop_no_pause (oracle : String → Nat → Except String (List Character))
    (maxR : Nat) :
    ∀ (ids : List String) (counter : Nat),
      (∀ id ∈ ids, ∃ b, oracle id 0 = .ok b ∧ b ≠ []) →
      counter + ids.length < MAX_CHAR_BATCH →
      (fetchLoopGo oracle maxR ids counter).1 = (ids.map itemEvs).flatten := by
  intro ids
  induction ids with
  | nil => intro counter _ _; rfl
  | cons id rest ih =>
    intro counter hok hlt
    obtain ⟨b, hb, hbne⟩ := hok id (by simp)
    have ha := attemptsGo_first_success oracle id maxR b hb hbne
    have hnp : ¬ MAX_CHAR_BATCH ≤ counter + 1 := by
      simp only [List.length_cons] at hlt
      omega
    have ihr := ih (counter + 1) (fun i hi => hok i (List.mem_cons_of_mem _ hi))
      (by simp only [List.length_cons] at hlt; omega)
    simp only [fetchLoopGo, ha, if_neg hnp, ihr, List.map_cons, List.flatten_cons, itemEvs]
    rfl

/-- Once the threshold is reachable, the loop emits the per-item blocks up to
the threshold item, one full pacing sleep, and then restarts with the counter
reset to zero. -/
theorem fetchLoop_pause_split (oracle : String → Nat → Except String (List Character))
    (maxR : Nat) :
    ∀ (ids : List String) (counter : Nat),
      (∀ id ∈ ids, ∃ b, oracle id 0 = .ok b ∧ b ≠ []) →
      counter < MAX_CHAR_BATCH → MAX_CHAR_BATCH ≤ counter + ids.length →
      (fetchLoopGo oracle maxR ids counter).1 =
        ((ids.take (MAX_CHAR_BATCH - counter)).map itemEvs).flatten ++
          Ev.fullSleep ::
            (fetchLoopGo oracle maxR (ids.drop (MAX_CHAR_BATCH - counter)) 0).1 := by
  intro ids
  induction ids with
  | nil =>
    intro counter _ hc hr
    simp only [List.length_nil] at hr
    omega
  | cons id rest ih =>
    intro counter hok hc hr
    obtain ⟨b, hb, hbne⟩ := hok id (by simp)
    have ha := attemptsGo_first_success oracle id maxR b hb hbne
    by_cases hp : MAX_CHAR_BATCH ≤ counter + 1
    · have hone : MAX_CHAR_BATCH - counter = 1 := by omega
      simp only [fetchLoopGo, ha, if_pos hp, hone, List.take_succ_cons, List.take_zero,
        List.drop_succ_cons, List.drop_zero, List.map_cons, List.map_nil,
        List.flatten_cons, List.flatten_nil, itemEvs]
      rfl
    · have hc2 : counter + 1 < MAX_CHAR_BATCH := by omega
      have hr2 : MAX_CHAR_BATCH ≤ (counter + 1) + rest.length := by
        simp only [List.length_cons] at hr
        omega
      have ihr := ih (counter + 1) (fun i hi => hok i (List.mem_cons_of_mem _ hi)) hc2 hr2
      obtain ⟨k, hk⟩ : ∃ k, MAX_CHAR_BATCH - counter = k + 1 :=
        ⟨MAX_CHAR_BATCH - counter - 1, by omega⟩
      have hk2 : MAX_CHAR_BATCH - (counter + 1) = k := by omega
      rw [hk2] at ihr
      simp only [fetchLoopGo, ha, if_neg hp, ihr, hk, List.take_succ_cons,
        List.drop_succ_cons, List.map_cons, List.flatten_cons, itemEvs]
      rfl

/-- C8: for 30 identities that all succeed on the first attempt with non-empty
results, the orchestrator's trace is exactly one full pacing sleep before the
first request, the 25 per-item blocks, one full pacing sleep immediately after
the 25th identity, and the remaining 5 per-item blocks run with the counter
back at zero — so the full interval is slept exactly twice beyond the fixed
per-item delays. -/
theorem c8_pacing_two_full_sleeps (oracle : String → Nat → Except String (List Character))
    (maxR : Nat) (ids : List String) (h30 : ids.length = 30)
    (hok : ∀ id ∈ ids, ∃ b, oracle id 0 = .ok b ∧ b ≠ []) :
    (fetch_characters oracle maxR ids).1 =
      Ev.fullSleep :: (((ids.take 25).map itemEvs).flatten ++
        Ev.fullSleep :: ((ids.drop 25).map itemEvs).flatten) ∧
    countFull (fetch_characters oracle maxR ids).1 = 2 := by
  have h1 : (fetchLoopGo oracle maxR ids 0).1 =
      ((ids.take 25).map itemEvs).flatten ++
        Ev.fullSleep :: (fetchLoopGo oracle maxR (ids.drop 25) 0).1 := by
    have h := fetchLoop_pause_split oracle maxR ids 0 hok (by simp [MAX_CHAR_BATCH])
      (by simp [MAX_CHAR_BATCH, h30])
    simpa [MAX_CHAR_BATCH] using h
  have h2 : (fetchLoopGo oracle maxR (ids.drop 25) 0).1 =
      ((ids.drop 25).map itemEvs).flatten := by
    apply fetchLoop_no_pause
    · intro i hi
      exact hok i (List.mem_of_mem_drop hi)
    · have hlen : (ids.drop 25).length = 5 := by
        rw [List.length_drop, h30]
      simp [MAX_CHAR_BATCH, hlen]
  have htrace : (fetch_characters oracle maxR ids).1 =
      Ev.fullSleep :: (((ids.take 25).map itemEvs).flatten ++
        Ev.fullSleep :: ((ids.drop 25).map itemEvs).flatten) := by
    show Ev.fullSleep :: (fetchLoopGo oracle maxR ids 0).1 = _
    rw [h1, h2]
  refine ⟨htrace, ?_⟩
  rw [htrace]
  have e1 := countFull_blocks (ids.take 25)
  have e2 := countFull_blocks (ids.drop 25)
  simp only [countFull, countFull_append, e1, e2, if_pos rfl]
  norm_num

/-- Oracle that always returns one character on the first attempt. -/
def c8oracle : String → Nat → Except String (List Character) :=
  fun _ _ => .ok [{ id := "c1", name := "A" }]

/-- Thirty identities. -/
def c8ids : List String := List.replicate 30 "v1"

/-- Witness for C8 on a concrete 30-identity run. -/
theorem c8_witness :
    (fetch_characters c8oracle 3 c8ids).1 =
      Ev.fullSleep :: (((c8ids.take 25).map itemEvs).flatten ++
        Ev.fullSleep :: ((c8ids.drop 25).map itemEvs).flatten) ∧
    countFull (fetch_characters c8oracle 3 c8ids).1 = 2 :=
  c8_pacing_two_full_sleeps c8oracle 3 c8ids (by decide)
    (fun id _ => ⟨[{ id := "c1", name := "A" }], rfl, by simp⟩)
